import Mathlib

/-!
Verification of src/scripts/extractInfoFromHMMfile.py.

The script walks a directory tree, parses the header of every `*.hmm`
profile file into an ordered string-to-string dictionary, infers a SOURCE
field from the ACC accession, and writes a tabular and a JSON summary into
the file's directory.

The shallow embedding below models Python string primitives at the
`List Char` level (Python `str.split(maxsplit=1)`, `str.rstrip()`,
`str.join`), files as the list of lines `readline`/iteration would yield
(each line keeps its trailing newline except possibly the last), and the
Python `dict` as an association list in insertion order where assignment
to an existing key updates the value in place.
-/

namespace HMMMeta

/-- Python whitespace characters relevant to `str.split()` / `str.rstrip()`
for ASCII input: space, tab, newline, carriage return, vertical tab,
form feed. -/
def pyIsSpace (c : Char) : Bool :=
  c = ' ' || c = '\t' || c = '\n' || c = '\r' || c = Char.ofNat 11 || c = Char.ofNat 12

/-- Model of `s.split(maxsplit=1)` on the character list: skip leading whitespace;
if nothing remains the result is empty; otherwise take the first token up
to the next whitespace run; skip that run; if nothing remains the result
is the single token, else the token and the remainder verbatim. -/
def pySplit1Chars (cs : List Char) : List (List Char) :=
  let s1 := cs.dropWhile pyIsSpace
  if s1.isEmpty then []
  else
    let tok := s1.takeWhile (fun c => !pyIsSpace c)
    let rest := (s1.dropWhile (fun c => !pyIsSpace c)).dropWhile pyIsSpace
    if rest.isEmpty then [tok] else [tok, rest]

/-- Python `s.split(maxsplit=1)`. -/
def pySplit1 (s : String) : List String :=
  (pySplit1Chars s.data).map (fun l => String.mk l)

/-- Python `s.rstrip()`: remove trailing whitespace. -/
def pyRstrip (s : String) : String :=
  String.mk ((s.data.reverse.dropWhile pyIsSpace).reverse)

/-- Python `s.startswith(pre)`, at the character-list level. -/
def pyStartsWith (s pre : String) : Bool :=
  pre.data.isPrefixOf s.data

/-- Python `s.endswith(suf)`, at the character-list level. -/
def pyEndsWith (s suf : String) : Bool :=
  suf.data.isSuffixOf s.data

/-- Python `sep.join(parts)`. -/
def pyJoin (sep : String) : List String → String
  | [] => ""
  | [x] => x
  | x :: xs => x ++ sep ++ pyJoin sep xs

/-- The module-level `keywords` tuple: the allow-list of header keys. -/
def keywords : List String :=
  ["HMMER", "NAME", "ACC", "DESC", "LENG", "MAXL", "ALPH", "RF", "MM",
   "CONS", "CS", "MAP", "DATE", "NSEQ", "EFFN", "CKSUM", "GA", "TC", "NC"]

/-- The record built per file: an association list in insertion order,
modelling a Python `dict` of strings. -/
abbrev Record := List (String × String)

/-- Key lookup in the association list, first match wins (as in a Python
`dict`, whose keys are unique). -/
def dictLookup (d : Record) (k : String) : Option String :=
  match d with
  | [] => none
  | (a, b) :: rest => if k = a then some b else dictLookup rest k

/-- Replace the value stored under `k`, keeping every entry's position. -/
def updateValue (k v : String) : Record → Record
  | [] => []
  | (a, b) :: rest =>
    if a = k then (k, v) :: updateValue k v rest else (a, b) :: updateValue k v rest

/-- Python `d[k] = v`: update in place when the key exists (keeping its
position), append otherwise. -/
def dictInsert (d : Record) (k v : String) : Record :=
  if (dictLookup d k).isSome then updateValue k v d
  else d ++ [(k, v)]

/-- Message of the `ValueError` raised when the first line does not start
with the HMMER version token (the spec's `FormatError`). -/
def versionErrorMsg (filename : String) : String :=
  "Error: " ++ filename ++ "does not start with HMMer version header line"

/-- Message of the `ValueError` raised by the two-way tuple unpacking of a
`split(maxsplit=1)` that did not yield two parts. -/
def unpackErrorMsg : String := "not enough values to unpack (expected 2)"

/-- The `for readln in f:` loop of `read_and_process_file`: rstrip each
line, stop at `//`, split into key and value (raising on failure), store
allow-listed keys. -/
def processBodyLines : List String → Record → Except String Record
  | [], d => .ok d
  | l :: ls, d =>
    let r := pyRstrip l
    if r = "//" then .ok d
    else
      match pySplit1 r with
      | [k, v] => processBodyLines ls (if keywords.contains k then dictInsert d k v else d)
      | _ => .error unpackErrorMsg

/-- Model of `read_and_process_file(root, filename)` on a file whose `readline`
decomposition is `lines`: seed the record with `HMMDirectory` and
`HMMfile`; read the first line; unless it is `"\n"`, `""` or `"//"`,
split it in two, require the first token to start with `HMMER` and store
it under `HMMER`; then run the body-line loop on the remaining lines. -/
def read_and_process_file (root filename : String) (lines : List String) :
    Except String Record :=
  if lines.headD "" = "\n" ∨ lines.headD "" = "" ∨ lines.headD "" = "//" then
    processBodyLines (lines.drop 1) [("HMMDirectory", root), ("HMMfile", filename)]
  else
    match pySplit1 (lines.headD "") with
    | [v, _] =>
      if pyStartsWith v "HMMER" then
        processBodyLines (lines.drop 1)
          (dictInsert [("HMMDirectory", root), ("HMMfile", filename)] "HMMER" v)
      else .error (versionErrorMsg filename)
    | _ => .error unpackErrorMsg

/-- Model of `infer_source_from_accession`: read `ACC` (missing treated as `""`)
and set `SOURCE` to `PFAM`, `TIGRFAMS` or `unknown` by prefix. The Python
function mutates the dict; the model returns the updated record. -/
def infer_source_from_accession (d : Record) : Record :=
  if pyStartsWith ((dictLookup d "ACC").getD "") "PF" then dictInsert d "SOURCE" "PFAM"
  else if pyStartsWith ((dictLookup d "ACC").getD "") "TIGR" then dictInsert d "SOURCE" "TIGRFAMS"
  else dictInsert d "SOURCE" "unknown"

/-- Content `write_table` writes to `hmm-meta-tab.txt`: the tab-joined
keys, a newline, the tab-joined values, a newline. -/
def write_table_content (d : Record) : String :=
  pyJoin "\t" (d.map Prod.fst) ++ "\n" ++ pyJoin "\t" (d.map Prod.snd) ++ "\n"

/-- Hex digit for the JSON escaper. -/
def hexDigit (n : Nat) : Char :=
  if n < 10 then Char.ofNat (48 + n) else Char.ofNat (87 + n)

/-- JSON escaping of one character as `json.dump` performs it on the
ASCII strings occurring here. -/
def jsonEscapeChar (c : Char) : String :=
  if c = '"' then "\\\""
  else if c = '\\' then "\\\\"
  else if c = '\n' then "\\n"
  else if c = '\t' then "\\t"
  else if c = '\r' then "\\r"
  else if c.toNat < 32 then
    "\\u00" ++ String.mk [hexDigit (c.toNat / 16), hexDigit (c.toNat % 16)]
  else String.singleton c

/-- A JSON string literal. -/
def jsonString (s : String) : String :=
  "\"" ++ String.join (s.data.map jsonEscapeChar) ++ "\""

/-- Content `write_json` writes to `hmm-meta.json`: one JSON object,
keys in the record's insertion order (`json.dump` default separators). -/
def write_json_content (d : Record) : String :=
  "\x7b" ++ pyJoin ", " (d.map (fun p => jsonString p.1 ++ ": " ++ jsonString p.2)) ++ "\x7d"

/-- The pair of outputs the two emitters write for one record. -/
def writeOutputs (d : Record) : String × String :=
  (write_table_content d, write_json_content d)

/-- The per-directory part of the `__main__` loop: process the `*.hmm`
files of one directory in order; each success overwrites the directory's
two fixed-named output files; a parse failure halts everything at once.
Returns the final state of the output files (`none` = never written) and
the fatal error if one was raised. -/
def runDir (root : String) :
    List (String × List String) → Option (String × String) →
    Option (String × String) × Option String
  | [], st => (st, none)
  | (fn, ls) :: rest, st =>
    match read_and_process_file root fn ls with
    | .error e => (st, some e)
    | .ok d => runDir root rest (some (writeOutputs (infer_source_from_accession d)))

/-! Dictionary lemmas. -/

/-- The keys of a record. -/
def keysOf (d : Record) : List String := d.map Prod.fst

theorem dictLookup_append (d1 d2 : Record) (k : String) :
    dictLookup (d1 ++ d2) k =
      match dictLookup d1 k with
      | some v => some v
      | none => dictLookup d2 k := by
  induction d1 with
  | nil => simp [dictLookup]
  | cons p rest ih =>
    obtain ⟨a, b⟩ := p
    by_cases h : k = a <;> simp [dictLookup, h, ih]

theorem dictLookup_isSome_iff (d : Record) (k : String) :
    (dictLookup d k).isSome = true ↔ k ∈ keysOf d := by
  induction d with
  | nil => simp [keysOf, dictLookup]
  | cons p rest ih =>
    obtain ⟨a, b⟩ := p
    by_cases h : k = a <;> simp [keysOf, dictLookup, h] at ih ⊢
    exact ih

theorem updateValue_not_mem (d : Record) (k v : String) (h : k ∉ keysOf d) :
    updateValue k v d = d := by
  induction d with
  | nil => rfl
  | cons p rest ih =>
    obtain ⟨a, b⟩ := p
    simp only [keysOf, List.map_cons, List.mem_cons, not_or] at h
    have ha : a ≠ k := fun hak => h.1 hak.symm
    simp only [updateValue, if_neg ha]
    rw [ih h.2]

theorem keysOf_cons (p : String × String) (rest : Record) :
    keysOf (p :: rest) = p.1 :: keysOf rest := rfl

theorem keysOf_updateValue (d : Record) (k v : String) (h : k ∈ keysOf d) :
    keysOf (updateValue k v d) = keysOf d := by
  induction d with
  | nil => rfl
  | cons p rest ih =>
    obtain ⟨a, b⟩ := p
    by_cases ha : a = k
    · subst ha
      rw [show updateValue a v ((a, b) :: rest) = (a, v) :: updateValue a v rest by
            simp [updateValue]]
      by_cases hm : a ∈ keysOf rest
      · rw [keysOf_cons, keysOf_cons, ih hm]
      · rw [updateValue_not_mem rest a v hm, keysOf_cons, keysOf_cons]
    · rw [show updateValue k v ((a, b) :: rest) = (a, b) :: updateValue k v rest by
            simp [updateValue, ha]]
      have hk : k ∈ keysOf rest := by
        rw [keysOf_cons] at h
        rcases List.mem_cons.mp h with h1 | h1
        · exact absurd h1.symm ha
        · exact h1
      rw [keysOf_cons, keysOf_cons, ih hk]

theorem keysOf_dictInsert (d : Record) (k v : String) :
    keysOf (dictInsert d k v) =
      if (dictLookup d k).isSome then keysOf d else keysOf d ++ [k] := by
  unfold dictInsert
  by_cases h : (dictLookup d k).isSome
  · rw [if_pos h, if_pos h]
    exact keysOf_updateValue d k v ((dictLookup_isSome_iff d k).mp h)
  · rw [if_neg h, if_neg h]
    simp [keysOf]

theorem mem_keysOf_dictInsert (d : Record) (k v k' : String) :
    k' ∈ keysOf (dictInsert d k v) ↔ k' ∈ keysOf d ∨ k' = k := by
  rw [keysOf_dictInsert]
  by_cases h : (dictLookup d k).isSome
  · simp only [h, if_true]
    constructor
    · exact fun hm => Or.inl hm
    · rintro (hm | rfl)
      · exact hm
      · exact (dictLookup_isSome_iff d k').mp h
  · simp [h]

theorem dictLookup_updateValue_ne (d : Record) (k v k' : String) (h : k' ≠ k) :
    dictLookup (updateValue k v d) k' = dictLookup d k' := by
  induction d with
  | nil => rfl
  | cons p rest ih =>
    obtain ⟨a, b⟩ := p
    by_cases ha : a = k
    · subst ha
      simp only [updateValue, if_pos rfl, dictLookup]
      rw [if_neg h, if_neg (fun hk => h (hk.trans rfl))]
      exact ih
    · simp only [updateValue, if_neg ha, dictLookup]
      by_cases hk : k' = a
      · rw [if_pos hk, if_pos hk]
      · rw [if_neg hk, if_neg hk]; exact ih

theorem dictLookup_updateValue_self (d : Record) (k v : String)
    (h : (dictLookup d k).isSome = true) :
    dictLookup (updateValue k v d) k = some v := by
  induction d with
  | nil => simp [dictLookup] at h
  | cons p rest ih =>
    obtain ⟨a, b⟩ := p
    by_cases ha : a = k
    · subst ha
      simp [updateValue, dictLookup]
    · have hk : k ≠ a := fun hk => ha hk.symm
      simp only [updateValue, if_neg ha, dictLookup, if_neg hk]
      apply ih
      simpa [dictLookup, if_neg hk] using h

theorem dictLookup_dictInsert (d : Record) (k v k' : String) :
    dictLookup (dictInsert d k v) k' = if k' = k then some v else dictLookup d k' := by
  unfold dictInsert
  by_cases h : (dictLookup d k).isSome
  · rw [if_pos h]
    by_cases hk : k' = k
    · subst hk
      rw [if_pos rfl]
      exact dictLookup_updateValue_self d k' v h
    · rw [if_neg hk]
      exact dictLookup_updateValue_ne d k v k' hk
  · rw [if_neg h, dictLookup_append]
    by_cases hk : k' = k
    · subst hk
      have hnone : dictLookup d k' = none := by
        cases hcase : dictLookup d k'
        · rfl
        · rw [hcase] at h; simp at h
      simp [hnone, dictLookup]
    · cases hcase : dictLookup d k'
      · simp [dictLookup, hk, hcase]
      · simp [hcase, hk]

/-! Parser lemmas. -/

theorem contains_iff (l : List String) (a : String) : l.contains a = true ↔ a ∈ l := by
  simp

/-- The key token of a header line: the head of its rstrip-and-split. -/
def lineKey (l : String) : String := (pySplit1 (pyRstrip l)).headD ""

/-- The allow-listed key tokens of a list of header lines, in file order. -/
def allowedKeys (ls : List String) : List String :=
  (ls.map lineKey).filter (fun k => keywords.contains k)

/-- The keys of `ks` not already in `seen`: first occurrences only, in
order of first occurrence. -/
def newKeys (seen : List String) : List String → List String
  | [] => []
  | k :: ks => if seen.contains k then newKeys seen ks else k :: newKeys (seen ++ [k]) ks

theorem newKeys_cons (seen : List String) (k : String) (ks : List String) :
    newKeys seen (k :: ks) =
      if seen.contains k then newKeys seen ks else k :: newKeys (seen ++ [k]) ks := rfl

theorem processBodyLines_nil (d : Record) : processBodyLines [] d = .ok d := rfl

theorem processBodyLines_cons (l : String) (ls : List String) (d : Record) :
    processBodyLines (l :: ls) d =
      if pyRstrip l = "//" then .ok d
      else
        match pySplit1 (pyRstrip l) with
        | [k, v] => processBodyLines ls (if keywords.contains k then dictInsert d k v else d)
        | _ => .error unpackErrorMsg := rfl

theorem newKeys_congr (seen seen' ks : List String)
    (h : ∀ x, x ∈ seen ↔ x ∈ seen') : newKeys seen ks = newKeys seen' ks := by
  induction ks generalizing seen seen' with
  | nil => rfl
  | cons k ks ih =>
    unfold newKeys
    have hc : seen.contains k = seen'.contains k := by
      by_cases hm : k ∈ seen
      · rw [(contains_iff seen k).mpr hm, ((contains_iff seen' k).mpr ((h k).mp hm)).symm]
      · have hm' : k ∉ seen' := fun hx => hm ((h k).mpr hx)
        have h1 : seen.contains k = false := by
          cases hcase : seen.contains k
          · rfl
          · exact absurd ((contains_iff seen k).mp hcase) hm
        have h2 : seen'.contains k = false := by
          cases hcase : seen'.contains k
          · rfl
          · exact absurd ((contains_iff seen' k).mp hcase) hm'
        rw [h1, h2]
    rw [hc]
    by_cases hm : seen'.contains k = true
    · rw [if_pos hm, if_pos hm]
      exact ih seen seen' h
    · rw [if_neg hm, if_neg hm]
      congr 1
      apply ih
      intro x
      simp only [List.mem_append, List.mem_singleton]
      exact or_congr (h x) Iff.rfl

theorem mem_newKeys (seen ks : List String) (k : String) :
    k ∈ newKeys seen ks ↔ k ∈ ks ∧ k ∉ seen := by
  induction ks generalizing seen with
  | nil => simp [newKeys]
  | cons a ks ih =>
    unfold newKeys
    by_cases ha : seen.contains a = true
    · rw [if_pos ha, ih]
      have hmem : a ∈ seen := (contains_iff seen a).mp ha
      constructor
      · rintro ⟨h1, h2⟩
        exact ⟨List.mem_cons_of_mem a h1, h2⟩
      · rintro ⟨h1, h2⟩
        rcases List.mem_cons.mp h1 with rfl | h1
        · exact absurd hmem h2
        · exact ⟨h1, h2⟩
    · rw [if_neg ha]
      have hmem : a ∉ seen := fun hx => ha ((contains_iff seen a).mpr hx)
      constructor
      · intro h
        rcases List.mem_cons.mp h with rfl | h
        · exact ⟨List.mem_cons_self k ks, hmem⟩
        · rcases (ih (seen ++ [a])).mp h with ⟨h1, h2⟩
          simp only [List.mem_append, List.mem_singleton, not_or] at h2
          exact ⟨List.mem_cons_of_mem a h1, h2.1⟩
      · rintro ⟨h1, h2⟩
        rcases List.mem_cons.mp h1 with rfl | h1
        · exact List.mem_cons_self k _
        · by_cases hk : k = a
          · subst hk
            exact List.mem_cons_self k _
          · apply List.mem_cons_of_mem
            apply (ih (seen ++ [a])).mpr
            refine ⟨h1, ?_⟩
            simp only [List.mem_append, List.mem_singleton, not_or]
            exact ⟨h2, hk⟩

/-- A header line is good when it is not the terminator and splits into a
key and a value. -/
abbrev GoodLine (l : String) : Prop :=
  pyRstrip l ≠ "//" ∧ (pySplit1 (pyRstrip l)).length = 2

/-- Running the body-line loop over good header lines followed by a
terminator succeeds, and the final key list is the initial one followed by
the first occurrences of the allow-listed header keys not already
present. -/
theorem processBodyLines_keys (hdr : List String) (term : String) (trail : List String)
    (d : Record) (hhdr : ∀ x ∈ hdr, GoodLine x) (hterm : pyRstrip term = "//") :
    ∃ d', processBodyLines (hdr ++ term :: trail) d = .ok d' ∧
      keysOf d' = keysOf d ++ newKeys (keysOf d) (allowedKeys hdr) := by
  induction hdr generalizing d with
  | nil =>
    refine ⟨d, ?_, by simp [allowedKeys, newKeys]⟩
    rw [List.nil_append, processBodyLines_cons, if_pos hterm]
  | cons l hdr ih =>
    obtain ⟨hne, hlen⟩ := hhdr l (List.mem_cons_self l hdr)
    obtain ⟨k, v, hkv⟩ := List.length_eq_two.mp hlen
    have hkey : lineKey l = k := by rw [lineKey, hkv]; rfl
    have hstep : processBodyLines ((l :: hdr) ++ term :: trail) d =
        processBodyLines (hdr ++ term :: trail)
          (if keywords.contains k then dictInsert d k v else d) := by
      rw [List.cons_append, processBodyLines_cons, if_neg hne, hkv]
    rw [hstep]
    have hallow : allowedKeys (l :: hdr) =
        if keywords.contains k then k :: allowedKeys hdr else allowedKeys hdr := by
      simp only [allowedKeys, List.map_cons, hkey]
      by_cases hkw : keywords.contains k = true
      · rw [List.filter_cons_of_pos hkw, if_pos hkw]
      · rw [List.filter_cons_of_neg (by simpa using hkw), if_neg hkw]
    by_cases hkw : keywords.contains k = true
    · rw [if_pos hkw]
      obtain ⟨d', hok, hkeys⟩ :=
        ih (dictInsert d k v) (fun x hx => hhdr x (List.mem_cons_of_mem l hx))
      refine ⟨d', hok, ?_⟩
      rw [hkeys, hallow, if_pos hkw, keysOf_dictInsert, newKeys_cons]
      by_cases hmem : (dictLookup d k).isSome
      · have hkd : k ∈ keysOf d := (dictLookup_isSome_iff d k).mp hmem
        rw [if_pos hmem, if_pos ((contains_iff (keysOf d) k).mpr hkd)]
      · have hkd : k ∉ keysOf d := fun hx => hmem ((dictLookup_isSome_iff d k).mpr hx)
        have hcon : (keysOf d).contains k ≠ true :=
          fun hx => hkd ((contains_iff (keysOf d) k).mp hx)
        rw [if_neg hmem, if_neg hcon, List.append_assoc, List.singleton_append]
    · rw [if_neg hkw]
      obtain ⟨d', hok, hkeys⟩ :=
        ih d (fun x hx => hhdr x (List.mem_cons_of_mem l hx))
      refine ⟨d', hok, ?_⟩
      rw [hkeys, hallow, if_neg hkw]

/-- Reading a file whose first `readline` result is empty, a bare newline
or the bare terminator skips version detection. -/
theorem read_skips_version (root fn : String) (lines : List String)
    (h : lines.headD "" = "\n" ∨ lines.headD "" = "" ∨ lines.headD "" = "//") :
    read_and_process_file root fn lines =
      processBodyLines (lines.drop 1) [("HMMDirectory", root), ("HMMfile", fn)] := by
  unfold read_and_process_file
  rw [if_pos h]

/-- A two-component first line whose first token is not on the skip list. -/
theorem split_two_not_skip (s v w : String) (hsplit : pySplit1 s = [v, w]) :
    ¬(s = "\n" ∨ s = "" ∨ s = "//") := by
  rintro (h | h | h) <;> rw [h] at hsplit
  · rw [show pySplit1 "\n" = [] by decide] at hsplit; cases hsplit
  · rw [show pySplit1 "" = [] by decide] at hsplit; cases hsplit
  · rw [show pySplit1 "//" = ["//"] by decide] at hsplit; cases hsplit

/-- Reading a file whose first line splits in two with a token starting
with `HMMER` stores the token under `HMMER` and proceeds to the loop. -/
theorem read_stores_version (root fn : String) (lines : List String) (v w : String)
    (hsplit : pySplit1 (lines.headD "") = [v, w])
    (hv : pyStartsWith v "HMMER" = true) :
    read_and_process_file root fn lines =
      processBodyLines (lines.drop 1)
        [("HMMDirectory", root), ("HMMfile", fn), ("HMMER", v)] := by
  unfold read_and_process_file
  rw [if_neg (split_two_not_skip _ _ _ hsplit), hsplit]
  show (if pyStartsWith v "HMMER" = true then _ else _) = _
  rw [if_pos hv]
  rfl

/-- Reading a file whose first line splits in two with a token NOT
starting with `HMMER` raises the version `FormatError`. -/
theorem read_version_error (root fn : String) (lines : List String) (v w : String)
    (hsplit : pySplit1 (lines.headD "") = [v, w])
    (hv : pyStartsWith v "HMMER" = false) :
    read_and_process_file root fn lines = .error (versionErrorMsg fn) := by
  unfold read_and_process_file
  rw [if_neg (split_two_not_skip _ _ _ hsplit), hsplit]
  show (if pyStartsWith v "HMMER" = true then _ else _) = _
  rw [if_neg (by rw [hv]; exact Bool.false_ne_true)]

/-- Reading a file whose first line is none of the three skipped strings
and does not split into exactly two components raises the tuple-unpacking
`ValueError`. -/
theorem read_unpack_error (root fn : String) (lines : List String)
    (hne : ¬(lines.headD "" = "\n" ∨ lines.headD "" = "" ∨ lines.headD "" = "//"))
    (hlen : (pySplit1 (lines.headD "")).length ≠ 2) :
    read_and_process_file root fn lines = .error unpackErrorMsg := by
  unfold read_and_process_file
  rw [if_neg hne]
  rcases hl : pySplit1 (lines.headD "") with _ | ⟨a, _ | ⟨b, _ | ⟨c, t⟩⟩⟩
  · rfl
  · rfl
  · rw [hl] at hlen; simp at hlen
  · rfl

/-- A one-token non-terminator body line makes the loop raise the
tuple-unpacking `ValueError`, whatever good lines precede it. -/
theorem processBodyLines_unpack_error (pre : List String) (l : String) (post : List String)
    (d : Record) (hpre : ∀ x ∈ pre, GoodLine x) (hne : pyRstrip l ≠ "//")
    (hlen : (pySplit1 (pyRstrip l)).length ≠ 2) :
    processBodyLines (pre ++ l :: post) d = .error unpackErrorMsg := by
  induction pre generalizing d with
  | nil =>
    rw [List.nil_append, processBodyLines_cons, if_neg hne]
    rcases hl : pySplit1 (pyRstrip l) with _ | ⟨a, _ | ⟨b, _ | ⟨c, t⟩⟩⟩
    · rfl
    · rfl
    · rw [hl] at hlen; simp at hlen
    · rfl
  | cons x pre ih =>
    obtain ⟨hxne, hxlen⟩ := hpre x (List.mem_cons_self x pre)
    obtain ⟨k, v, hkv⟩ := List.length_eq_two.mp hxlen
    rw [List.cons_append, processBodyLines_cons, if_neg hxne, hkv]
    exact ih _ (fun y hy => hpre y (List.mem_cons_of_mem x hy))

/-! Source inference lemmas. -/

/-- The provenance label `infer_source_from_accession` derives from an
accession string. -/
def sourceOf (acc : String) : String :=
  if pyStartsWith acc "PF" then "PFAM"
  else if pyStartsWith acc "TIGR" then "TIGRFAMS"
  else "unknown"

theorem infer_sets_SOURCE (d : Record) :
    dictLookup (infer_source_from_accession d) "SOURCE" =
      some (sourceOf ((dictLookup d "ACC").getD "")) := by
  unfold infer_source_from_accession sourceOf
  by_cases h1 : pyStartsWith ((dictLookup d "ACC").getD "") "PF" = true
  · rw [if_pos h1, if_pos h1, dictLookup_dictInsert, if_pos rfl]
  · rw [if_neg h1, if_neg h1]
    by_cases h2 : pyStartsWith ((dictLookup d "ACC").getD "") "TIGR" = true
    · rw [if_pos h2, if_pos h2, dictLookup_dictInsert, if_pos rfl]
    · rw [if_neg h2, if_neg h2, dictLookup_dictInsert, if_pos rfl]

theorem infer_preserves_others (d : Record) (k : String) (hk : k ≠ "SOURCE") :
    dictLookup (infer_source_from_accession d) k = dictLookup d k := by
  unfold infer_source_from_accession
  by_cases h1 : pyStartsWith ((dictLookup d "ACC").getD "") "PF" = true
  · rw [if_pos h1, dictLookup_dictInsert, if_neg hk]
  · rw [if_neg h1]
    by_cases h2 : pyStartsWith ((dictLookup d "ACC").getD "") "TIGR" = true
    · rw [if_pos h2, dictLookup_dictInsert, if_neg hk]
    · rw [if_neg h2, dictLookup_dictInsert, if_neg hk]

theorem mem_keysOf_infer (d : Record) (k : String) :
    k ∈ keysOf (infer_source_from_accession d) ↔ k ∈ keysOf d ∨ k = "SOURCE" := by
  unfold infer_source_from_accession
  by_cases h1 : pyStartsWith ((dictLookup d "ACC").getD "") "PF" = true
  · rw [if_pos h1]; exact mem_keysOf_dictInsert d "SOURCE" _ k
  · rw [if_neg h1]
    by_cases h2 : pyStartsWith ((dictLookup d "ACC").getD "") "TIGR" = true
    · rw [if_pos h2]; exact mem_keysOf_dictInsert d "SOURCE" _ k
    · rw [if_neg h2]; exact mem_keysOf_dictInsert d "SOURCE" _ k

theorem keysOf_infer_not_mem (d : Record) (h : "SOURCE" ∉ keysOf d) :
    keysOf (infer_source_from_accession d) = keysOf d ++ ["SOURCE"] := by
  have hnone : (dictLookup d "SOURCE").isSome ≠ true := by
    intro hx
    exact h ((dictLookup_isSome_iff d "SOURCE").mp hx)
  unfold infer_source_from_accession
  by_cases h1 : pyStartsWith ((dictLookup d "ACC").getD "") "PF" = true
  · rw [if_pos h1, keysOf_dictInsert, if_neg hnone]
  · rw [if_neg h1]
    by_cases h2 : pyStartsWith ((dictLookup d "ACC").getD "") "TIGR" = true
    · rw [if_pos h2, keysOf_dictInsert, if_neg hnone]
    · rw [if_neg h2, keysOf_dictInsert, if_neg hnone]

theorem runDir_nil (root : String) (st : Option (String × String)) :
    runDir root [] st = (st, none) := rfl

theorem runDir_cons (root fn : String) (ls : List String)
    (rest : List (String × List String)) (st : Option (String × String)) :
    runDir root ((fn, ls) :: rest) st =
      match read_and_process_file root fn ls with
      | .error e => (st, some e)
      | .ok d => runDir root rest (some (writeOutputs (infer_source_from_accession d))) := rfl

theorem mem_allowedKeys (ls : List String) (k : String) :
    k ∈ allowedKeys ls ↔ (k ∈ keywords ∧ ∃ l ∈ ls, lineKey l = k) := by
  simp only [allowedKeys, List.mem_filter, List.mem_map]
  rw [contains_iff]
  constructor
  · rintro ⟨⟨l, hl, rfl⟩, hkw⟩
    exact ⟨hkw, l, hl, rfl⟩
  · rintro ⟨hkw, l, hl, rfl⟩
    exact ⟨⟨l, hl, rfl⟩, hkw⟩

/-! Claim theorems. -/

/-- C2: `infer_source_from_accession` sets `SOURCE` as a pure function of
the `ACC` value (a missing `ACC` is treated as the empty string): prefix
`PF` gives `PFAM`, else prefix `TIGR` gives `TIGRFAMS`, else `unknown`;
and it changes no other field of the record. -/
theorem claim_C2_source_inference (d : Record) :
    dictLookup (infer_source_from_accession d) "SOURCE" =
      some (sourceOf ((dictLookup d "ACC").getD "")) ∧
    ∀ k, k ≠ "SOURCE" → dictLookup (infer_source_from_accession d) k = dictLookup d k :=
  ⟨infer_sets_SOURCE d, fun k hk => infer_preserves_others d k hk⟩

theorem claim_C2_witness :
    dictLookup (infer_source_from_accession [("ACC", "PF00001")]) "SOURCE" = some "PFAM" ∧
    dictLookup (infer_source_from_accession [("ACC", "PF00001")]) "ACC" = some "PF00001" :=
  ⟨(claim_C2_source_inference [("ACC", "PF00001")]).1.trans (by decide),
   ((claim_C2_source_inference [("ACC", "PF00001")]).2 "ACC" (by decide)).trans (by decide)⟩

/-- C3: a file whose first line is exactly the terminator `//` (so
`readline` returns the bare two-character string, which only happens when
the file is `//` with no trailing newline) parses successfully to a record
holding exactly `HMMDirectory` and `HMMfile`. -/
theorem claim_C3_immediate_terminator (root fn : String) :
    read_and_process_file root fn ["//"] =
      .ok [("HMMDirectory", root), ("HMMfile", fn)] := rfl

/-- C4: a first line that splits into two components whose first token
does not start with `HMMER` makes `read_and_process_file` raise the
version `FormatError` naming the file, and the driver halts with that
error without writing any output for the file. -/
theorem claim_C4_version_format_error (root fn v w : String) (lines : List String)
    (rest : List (String × List String)) (st : Option (String × String))
    (hsplit : pySplit1 (lines.headD "") = [v, w])
    (hv : pyStartsWith v "HMMER" = false) :
    read_and_process_file root fn lines = .error (versionErrorMsg fn) ∧
    runDir root ((fn, lines) :: rest) st = (st, some (versionErrorMsg fn)) := by
  have herr := read_version_error root fn lines v w hsplit hv
  refine ⟨herr, ?_⟩
  rw [runDir_cons, herr]

theorem claim_C4_witness :
    (pySplit1 ((["FOOBAR 1.0\n"] : List String).headD "") = ["FOOBAR", "1.0\n"] ∧
     pyStartsWith "FOOBAR" "HMMER" = false) ∧
    read_and_process_file "." "bad.hmm" ["FOOBAR 1.0\n"] =
      .error (versionErrorMsg "bad.hmm") ∧
    runDir "." [("bad.hmm", ["FOOBAR 1.0\n"])] none =
      (none, some (versionErrorMsg "bad.hmm")) :=
  ⟨⟨by decide, by decide⟩,
   claim_C4_version_format_error "." "bad.hmm" "FOOBAR" "1.0\n" ["FOOBAR 1.0\n"] [] none
     (by decide) (by decide)⟩

/-- C5: a header line before the terminator that consists of only one
whitespace-delimited token makes `read_and_process_file` fail (the
unsplittable key/value line raised as the spec's `FormatError`) rather
than silently skipping the line. -/
theorem claim_C5_one_token_line_error (root fn first : String) (pre : List String)
    (l : String) (post : List String)
    (hfirst : (first = "\n" ∨ first = "" ∨ first = "//") ∨
      ∃ v w, pySplit1 first = [v, w] ∧ pyStartsWith v "HMMER" = true)
    (hpre : ∀ x ∈ pre, GoodLine x)
    (hne : pyRstrip l ≠ "//")
    (hlen : (pySplit1 (pyRstrip l)).length = 1) :
    read_and_process_file root fn (first :: pre ++ l :: post) = .error unpackErrorMsg := by
  have hlen2 : (pySplit1 (pyRstrip l)).length ≠ 2 := by omega
  have hbody : ∀ d, processBodyLines (pre ++ l :: post) d = .error unpackErrorMsg :=
    fun d => processBodyLines_unpack_error pre l post d hpre hne hlen2
  rcases hfirst with hskip | ⟨v, w, hsplit, hv⟩
  · rw [read_skips_version root fn (first :: pre ++ l :: post) (by exact hskip)]
    exact hbody _
  · rw [read_stores_version root fn (first :: pre ++ l :: post) v w (by exact hsplit) hv]
    exact hbody _

theorem claim_C5_witness :
    (pyRstrip "NAME\n" ≠ "//" ∧ (pySplit1 (pyRstrip "NAME\n")).length = 1) ∧
    read_and_process_file "." "x.hmm" ["HMMER3/f x\n", "NAME\n", "//\n"] =
      .error unpackErrorMsg :=
  ⟨by decide,
   claim_C5_one_token_line_error "." "x.hmm" "HMMER3/f x\n" [] "NAME\n" ["//\n"]
     (Or.inr ⟨"HMMER3/f", "x\n", by decide, by decide⟩)
     (by simp) (by decide) (by decide)⟩

/-- C10: a first line that is a single whitespace-delimited token other
than exactly the three skipped strings (for example a terminator read as
`//` followed by newline, or a bare version token) makes
`read_and_process_file` raise the two-way tuple-unpacking error instead
of returning a record. -/
theorem claim_C10_single_token_unpack_error (root fn t : String) (lines : List String)
    (h1 : ¬(lines.headD "" = "\n" ∨ lines.headD "" = "" ∨ lines.headD "" = "//"))
    (h2 : pySplit1 (lines.headD "") = [t]) :
    read_and_process_file root fn lines = .error unpackErrorMsg := by
  apply read_unpack_error root fn lines h1
  rw [h2]
  simp

theorem claim_C10_witness :
    (¬((["//\n"] : List String).headD "" = "\n" ∨ (["//\n"] : List String).headD "" = "" ∨
        (["//\n"] : List String).headD "" = "//") ∧
      pySplit1 ((["//\n"] : List String).headD "") = ["//"]) ∧
    read_and_process_file "." "x.hmm" ["//\n"] = .error unpackErrorMsg :=
  ⟨⟨by decide, by decide⟩,
   claim_C10_single_token_unpack_error "." "x.hmm" "//" ["//\n"] (by decide) (by decide)⟩

/-- C1: a well-formed profile file (version line whose token starts with
`HMMER`, good key/value header lines, then a terminator) parses to a
record whose key set is exactly `HMMDirectory`, `HMMfile`, `HMMER` and the
allow-listed keys present in the header, and nothing else; after
`infer_source_from_accession`, `SOURCE` is the only additional key. -/
theorem claim_C1_wellformed_key_set (root fn first term : String)
    (hdr trail : List String) (v w : String)
    (hsplit : pySplit1 first = [v, w]) (hv : pyStartsWith v "HMMER" = true)
    (hhdr : ∀ x ∈ hdr, GoodLine x) (hterm : pyRstrip term = "//") :
    ∃ d, read_and_process_file root fn (first :: hdr ++ term :: trail) = .ok d ∧
      (∀ k, k ∈ keysOf d ↔
        (k = "HMMDirectory" ∨ k = "HMMfile" ∨ k = "HMMER" ∨
         (k ∈ keywords ∧ ∃ l ∈ hdr, lineKey l = k))) ∧
      (∀ k, k ∈ keysOf (infer_source_from_accession d) ↔ k ∈ keysOf d ∨ k = "SOURCE") := by
  obtain ⟨d, hok, hkeys⟩ := processBodyLines_keys hdr term trail
      [("HMMDirectory", root), ("HMMfile", fn), ("HMMER", v)] hhdr hterm
  refine ⟨d, ?_, ?_, fun k => mem_keysOf_infer d k⟩
  · rw [read_stores_version root fn (first :: hdr ++ term :: trail) v w (by exact hsplit) hv]
    exact hok
  · intro k
    rw [hkeys,
        show keysOf [("HMMDirectory", root), ("HMMfile", fn), ("HMMER", v)] =
          ["HMMDirectory", "HMMfile", "HMMER"] from rfl]
    rw [List.mem_append, mem_newKeys, mem_allowedKeys]
    simp only [List.mem_cons, List.not_mem_nil, or_false]
    tauto

theorem claim_C1_witness :
    ((∀ x ∈ (["NAME  ProtX\n", "ACC   PF00123\n", "FOO bar\n"] : List String), GoodLine x) ∧
      pyRstrip "//\n" = "//") ∧
    ∃ d, read_and_process_file "." "x.hmm"
        ("HMMER3/f [3.1b2]\n" :: ["NAME  ProtX\n", "ACC   PF00123\n", "FOO bar\n"] ++
          "//\n" :: ["junk\n"]) = .ok d ∧
      (∀ k, k ∈ keysOf d ↔
        (k = "HMMDirectory" ∨ k = "HMMfile" ∨ k = "HMMER" ∨
         (k ∈ keywords ∧
          ∃ l ∈ (["NAME  ProtX\n", "ACC   PF00123\n", "FOO bar\n"] : List String),
            lineKey l = k))) ∧
      (∀ k, k ∈ keysOf (infer_source_from_accession d) ↔ k ∈ keysOf d ∨ k = "SOURCE") :=
  ⟨⟨by decide, by decide⟩,
   claim_C1_wellformed_key_set "." "x.hmm" "HMMER3/f [3.1b2]\n" "//\n"
     ["NAME  ProtX\n", "ACC   PF00123\n", "FOO bar\n"] ["junk\n"]
     "HMMER3/f" "[3.1b2]\n" (by decide) (by decide) (by decide) (by decide)⟩

/-- C6: when several files of one directory are processed in sequence and
all of them parse, the directory's two output files end up holding exactly
the last file's record: each write overwrites the fixed-named outputs, so
the final state does not depend on the earlier files or on the initial
state. -/
theorem claim_C6_overwrite_last (root fn : String) (prev : List (String × List String))
    (ls : List String) (st : Option (String × String)) (d : Record)
    (hprev : ∀ p ∈ prev, ∃ dp, read_and_process_file root p.1 p.2 = .ok dp)
    (hlast : read_and_process_file root fn ls = .ok d) :
    runDir root (prev ++ [(fn, ls)]) st =
      (some (writeOutputs (infer_source_from_accession d)), none) := by
  induction prev generalizing st with
  | nil =>
    rw [List.nil_append, runDir_cons, hlast]
    rfl
  | cons p rest ih =>
    obtain ⟨dp, hdp⟩ := hprev p (List.mem_cons_self p rest)
    obtain ⟨pfn, pls⟩ := p
    rw [List.cons_append, runDir_cons, hdp]
    exact ih _ (fun q hq => hprev q (List.mem_cons_of_mem _ hq))

theorem claim_C6_witness :
    read_and_process_file "./models" "b.hmm"
        ["HMMER3/f [3.1]\n", "NAME  ProteinY\n", "ACC   TIGR00045\n", "//\n"] =
      .ok [("HMMDirectory", "./models"), ("HMMfile", "b.hmm"), ("HMMER", "HMMER3/f"),
           ("NAME", "ProteinY"), ("ACC", "TIGR00045")] ∧
    runDir "./models"
        [("a.hmm", ["HMMER3/f [3.1]\n", "NAME  ProteinX\n", "ACC   PF00123\n", "//\n"]),
         ("b.hmm", ["HMMER3/f [3.1]\n", "NAME  ProteinY\n", "ACC   TIGR00045\n", "//\n"])]
        none =
      (some (writeOutputs (infer_source_from_accession
        [("HMMDirectory", "./models"), ("HMMfile", "b.hmm"), ("HMMER", "HMMER3/f"),
         ("NAME", "ProteinY"), ("ACC", "TIGR00045")])), none) :=
  ⟨rfl,
   claim_C6_overwrite_last "./models" "b.hmm"
     [("a.hmm", ["HMMER3/f [3.1]\n", "NAME  ProteinX\n", "ACC   PF00123\n", "//\n"])]
     ["HMMER3/f [3.1]\n", "NAME  ProteinY\n", "ACC   TIGR00045\n", "//\n"] none
     [("HMMDirectory", "./models"), ("HMMfile", "b.hmm"), ("HMMER", "HMMER3/f"),
      ("NAME", "ProteinY"), ("ACC", "TIGR00045")]
     (by
       rintro p hp
       rw [List.mem_singleton] at hp
       subst hp
       exact ⟨_, rfl⟩)
     rfl⟩

/-- The keys of a parsed record contain no `SOURCE`: the seed keys do not,
and every later key comes from the allow-list. -/
theorem source_not_in_parsed (base : List String) (hdr : List String)
    (hbase : "SOURCE" ∉ base) :
    "SOURCE" ∉ base ++ newKeys base (allowedKeys hdr) := by
  intro h
  rcases List.mem_append.mp h with h | h
  · exact hbase h
  · obtain ⟨h1, _⟩ := (mem_newKeys _ _ _).mp h
    obtain ⟨hkw, _⟩ := (mem_allowedKeys hdr "SOURCE").mp h1
    revert hkw
    decide

/-- C8: for every processed well-formed file, the key order of the fully
constructed record is first-insertion order: `HMMDirectory`, then
`HMMfile`, then `HMMER` when the file had a version line, then the
allow-listed header keys in order of first occurrence, then `SOURCE`
last. -/
theorem claim_C8_insertion_order (root fn first term : String) (hdr trail : List String)
    (hfirst : (first = "\n" ∨ first = "" ∨ first = "//") ∨
      ∃ v w, pySplit1 first = [v, w] ∧ pyStartsWith v "HMMER" = true)
    (hhdr : ∀ x ∈ hdr, GoodLine x) (hterm : pyRstrip term = "//") :
    ∃ d, read_and_process_file root fn (first :: hdr ++ term :: trail) = .ok d ∧
      keysOf (infer_source_from_accession d) =
        (if first = "\n" ∨ first = "" ∨ first = "//" then
          ["HMMDirectory", "HMMfile"] else ["HMMDirectory", "HMMfile", "HMMER"]) ++
        newKeys
          (if first = "\n" ∨ first = "" ∨ first = "//" then
            ["HMMDirectory", "HMMfile"] else ["HMMDirectory", "HMMfile", "HMMER"])
          (allowedKeys hdr) ++ ["SOURCE"] := by
  rcases hfirst with hskip | ⟨v, w, hsplit, hv⟩
  · obtain ⟨d, hok, hkeys⟩ := processBodyLines_keys hdr term trail
        [("HMMDirectory", root), ("HMMfile", fn)] hhdr hterm
    refine ⟨d, ?_, ?_⟩
    · rw [read_skips_version root fn (first :: hdr ++ term :: trail) (by exact hskip)]
      exact hok
    · have hs : "SOURCE" ∉ keysOf d := by
        rw [hkeys]
        exact source_not_in_parsed _ hdr (by
          rw [show keysOf [("HMMDirectory", root), ("HMMfile", fn)] =
                ["HMMDirectory", "HMMfile"] from rfl]
          decide)
      rw [keysOf_infer_not_mem d hs, hkeys, if_pos hskip]
      rfl
  · have hneg := split_two_not_skip first v w hsplit
    obtain ⟨d, hok, hkeys⟩ := processBodyLines_keys hdr term trail
        [("HMMDirectory", root), ("HMMfile", fn), ("HMMER", v)] hhdr hterm
    refine ⟨d, ?_, ?_⟩
    · rw [read_stores_version root fn (first :: hdr ++ term :: trail) v w (by exact hsplit) hv]
      exact hok
    · have hs : "SOURCE" ∉ keysOf d := by
        rw [hkeys]
        exact source_not_in_parsed _ hdr (by
          rw [show keysOf [("HMMDirectory", root), ("HMMfile", fn), ("HMMER", v)] =
                ["HMMDirectory", "HMMfile", "HMMER"] from rfl]
          decide)
      rw [keysOf_infer_not_mem d hs, hkeys, if_neg hneg]
      rfl

theorem claim_C8_witness :
    ((∀ x ∈ (["ACC  PF00001\n", "NAME  one\n", "ACC  override\n"] : List String), GoodLine x) ∧
      pyRstrip "//\n" = "//" ∧
      pySplit1 "HMMER3/f x\n" = ["HMMER3/f", "x\n"]) ∧
    ∃ d, read_and_process_file "." "x.hmm"
        ("HMMER3/f x\n" :: ["ACC  PF00001\n", "NAME  one\n", "ACC  override\n"] ++
          "//\n" :: []) = .ok d ∧
      keysOf (infer_source_from_accession d) =
        (if ("HMMER3/f x\n" : String) = "\n" ∨ ("HMMER3/f x\n" : String) = "" ∨
            ("HMMER3/f x\n" : String) = "//" then
          ["HMMDirectory", "HMMfile"] else ["HMMDirectory", "HMMfile", "HMMER"]) ++
        newKeys
          (if ("HMMER3/f x\n" : String) = "\n" ∨ ("HMMER3/f x\n" : String) = "" ∨
              ("HMMER3/f x\n" : String) = "//" then
            ["HMMDirectory", "HMMfile"] else ["HMMDirectory", "HMMfile", "HMMER"])
          (allowedKeys ["ACC  PF00001\n", "NAME  one\n", "ACC  override\n"]) ++ ["SOURCE"] :=
  ⟨⟨by decide, by decide, by decide⟩,
   claim_C8_insertion_order "." "x.hmm" "HMMER3/f x\n" "//\n"
     ["ACC  PF00001\n", "NAME  one\n", "ACC  override\n"] []
     (Or.inr ⟨"HMMER3/f", "x\n", by decide, by decide⟩) (by decide) (by decide)⟩

/-! Tabular round trip, claim C7. -/

/-- Split a character list on every occurrence of `sep` (Python
`s.split(sep)` for a one-character separator). -/
def splitOnCharList (sep : Char) : List Char → List (List Char)
  | [] => [[]]
  | c :: cs =>
    if c = sep then [] :: splitOnCharList sep cs
    else
      match splitOnCharList sep cs with
      | t :: ts => (c :: t) :: ts
      | [] => [[c]]

/-- Python `s.split("\t")`. -/
def splitTab (s : String) : List String :=
  (splitOnCharList '\t' s.data).map (fun l => String.mk l)

/-- Python `s.splitlines()` for strings whose only line break is `"\n"`:
split on newlines and drop the trailing empty piece a final newline
produces. -/
def pySplitlines (s : String) : List String :=
  (if (splitOnCharList '\n' s.data).getLast? = some [] then
     (splitOnCharList '\n' s.data).dropLast
   else splitOnCharList '\n' s.data).map (fun l => String.mk l)

theorem splitOnCharList_no_sep (sep : Char) (cs : List Char) (h : sep ∉ cs) :
    splitOnCharList sep cs = [cs] := by
  induction cs with
  | nil => rfl
  | cons c cs ih =>
    simp only [List.mem_cons, not_or] at h
    have hc : ¬c = sep := fun hcs => h.1 hcs.symm
    rw [splitOnCharList, if_neg hc, ih h.2]

theorem splitOnCharList_append (sep : Char) (a b : List Char) (h : sep ∉ a) :
    splitOnCharList sep (a ++ sep :: b) = a :: splitOnCharList sep b := by
  induction a with
  | nil =>
    rw [List.nil_append, splitOnCharList, if_pos rfl]
  | cons c a ih =>
    simp only [List.mem_cons, not_or] at h
    rw [List.cons_append, splitOnCharList, if_neg (fun hcs => h.1 hcs.symm), ih h.2]

theorem data_mk (l : List Char) : (String.mk l).data = l := rfl

theorem mk_data (s : String) : String.mk s.data = s := rfl

theorem data_pyJoin (sep : String) (parts : List String) (c : Char)
    (hc : c ∈ (pyJoin sep parts).data) :
    c ∈ sep.data ∨ ∃ p ∈ parts, c ∈ p.data := by
  induction parts with
  | nil => cases hc
  | cons x parts ih =>
    cases parts with
    | nil =>
      right
      exact ⟨x, List.mem_singleton_self x, hc⟩
    | cons y rest =>
      rw [show pyJoin sep (x :: y :: rest) = x ++ sep ++ pyJoin sep (y :: rest) from rfl,
          String.data_append, String.data_append] at hc
      rcases List.mem_append.mp hc with hc | hc
      · rcases List.mem_append.mp hc with hc | hc
        · exact Or.inr ⟨x, List.mem_cons_self x _, hc⟩
        · exact Or.inl hc
      · rcases ih hc with hc | ⟨p, hp, hcp⟩
        · exact Or.inl hc
        · exact Or.inr ⟨p, List.mem_cons_of_mem x hp, hcp⟩

theorem splitTab_pyJoin (parts : List String) (hne : parts ≠ [])
    (h : ∀ p ∈ parts, '\t' ∉ p.data) :
    splitTab (pyJoin "\t" parts) = parts := by
  induction parts with
  | nil => exact absurd rfl hne
  | cons x parts ih =>
    cases parts with
    | nil =>
      rw [show pyJoin "\t" [x] = x from rfl, splitTab,
          splitOnCharList_no_sep '\t' x.data (h x (List.mem_singleton_self x))]
      rfl
    | cons y rest =>
      have hdata : (pyJoin "\t" (x :: y :: rest)).data =
          x.data ++ '\t' :: (pyJoin "\t" (y :: rest)).data := by
        rw [show pyJoin "\t" (x :: y :: rest) = x ++ "\t" ++ pyJoin "\t" (y :: rest) from rfl,
            String.data_append, String.data_append, List.append_assoc]
        rfl
      rw [splitTab, hdata,
          splitOnCharList_append '\t' x.data _ (h x (List.mem_cons_self x _)),
          List.map_cons]
      rw [show (String.mk x.data) = x from rfl]
      congr 1
      exact ih (fun hx => List.noConfusion hx)
        (fun p hp => h p (List.mem_cons_of_mem x hp))

theorem pySplitlines_two (A B : String) (hA : '\n' ∉ A.data) (hB : '\n' ∉ B.data) :
    pySplitlines (A ++ "\n" ++ B ++ "\n") = [A, B] := by
  have hdata : (A ++ "\n" ++ B ++ "\n").data = A.data ++ '\n' :: (B.data ++ '\n' :: []) := by
    rw [String.data_append, String.data_append, String.data_append]
    rw [List.append_assoc, List.append_assoc]
    rfl
  have hsplit : splitOnCharList '\n' ((A ++ "\n" ++ B ++ "\n").data) =
      [A.data, B.data, []] := by
    rw [hdata, splitOnCharList_append '\n' A.data _ hA,
        splitOnCharList_append '\n' B.data _ hB]
    rfl
  rw [pySplitlines, hsplit]
  rfl

theorem zip_map_fst_snd_eq (d : Record) :
    (d.map Prod.fst).zip (d.map Prod.snd) = d := by
  induction d with
  | nil => rfl
  | cons p rest ih =>
    rw [List.map_cons, List.map_cons, List.zip_cons_cons, ih]

/-- C7 counterexample: a record produced by the pipeline whose `NAME`
value contains a tab. Splitting the two output lines on tab and zipping
them does NOT reconstruct the record: the tab inside the value
desynchronizes the columns. -/
theorem claim_C7_counterexample :
    read_and_process_file "." "x.hmm" ["HMMER3/f [3.1]\n", "NAME a\tb\n", "//\n"] =
      .ok [("HMMDirectory", "."), ("HMMfile", "x.hmm"), ("HMMER", "HMMER3/f"),
           ("NAME", "a\tb")] ∧
    infer_source_from_accession
        [("HMMDirectory", "."), ("HMMfile", "x.hmm"), ("HMMER", "HMMER3/f"),
         ("NAME", "a\tb")] =
      [("HMMDirectory", "."), ("HMMfile", "x.hmm"), ("HMMER", "HMMER3/f"),
       ("NAME", "a\tb"), ("SOURCE", "unknown")] ∧
    pySplitlines (write_table_content
        [("HMMDirectory", "."), ("HMMfile", "x.hmm"), ("HMMER", "HMMER3/f"),
         ("NAME", "a\tb"), ("SOURCE", "unknown")]) =
      ["HMMDirectory\tHMMfile\tHMMER\tNAME\tSOURCE",
       ".\tx.hmm\tHMMER3/f\ta\tb\tunknown"] ∧
    (splitTab "HMMDirectory\tHMMfile\tHMMER\tNAME\tSOURCE").zip
        (splitTab ".\tx.hmm\tHMMER3/f\ta\tb\tunknown") ≠
      [("HMMDirectory", "."), ("HMMfile", "x.hmm"), ("HMMER", "HMMER3/f"),
       ("NAME", "a\tb"), ("SOURCE", "unknown")] :=
  ⟨rfl, rfl, rfl, by decide⟩

/-- C7 (amended): for every nonempty record whose keys and values contain
no tab and no newline, splitting the two lines of the produced
`hmm-meta-tab.txt` on the tab character and zipping them reconstructs
exactly the key/value pairs of the record, in the same order. -/
theorem claim_C7_roundtrip_amended (d : Record) (hne : d ≠ [])
    (h : ∀ p ∈ d, ('\t' ∉ p.1.data ∧ '\n' ∉ p.1.data) ∧
                  ('\t' ∉ p.2.data ∧ '\n' ∉ p.2.data)) :
    pySplitlines (write_table_content d) =
      [pyJoin "\t" (d.map Prod.fst), pyJoin "\t" (d.map Prod.snd)] ∧
    (splitTab (pyJoin "\t" (d.map Prod.fst))).zip
        (splitTab (pyJoin "\t" (d.map Prod.snd))) = d := by
  have hkeys_tab : ∀ p ∈ d.map Prod.fst, '\t' ∉ p.data := by
    rintro p hp
    obtain ⟨q, hq, rfl⟩ := List.mem_map.mp hp
    exact ((h q hq).1).1
  have hvals_tab : ∀ p ∈ d.map Prod.snd, '\t' ∉ p.data := by
    rintro p hp
    obtain ⟨q, hq, rfl⟩ := List.mem_map.mp hp
    exact ((h q hq).2).1
  have hkeys_nl : '\n' ∉ (pyJoin "\t" (d.map Prod.fst)).data := by
    intro hc
    rcases data_pyJoin "\t" (d.map Prod.fst) '\n' hc with hc | ⟨p, hp, hcp⟩
    · exact absurd hc (by decide)
    · obtain ⟨q, hq, rfl⟩ := List.mem_map.mp hp
      exact ((h q hq).1).2 hcp
  have hvals_nl : '\n' ∉ (pyJoin "\t" (d.map Prod.snd)).data := by
    intro hc
    rcases data_pyJoin "\t" (d.map Prod.snd) '\n' hc with hc | ⟨p, hp, hcp⟩
    · exact absurd hc (by decide)
    · obtain ⟨q, hq, rfl⟩ := List.mem_map.mp hp
      exact ((h q hq).2).2 hcp
  have hmne : d.map Prod.fst ≠ [] := fun hx => hne (List.map_eq_nil_iff.mp hx)
  have hmne2 : d.map Prod.snd ≠ [] := fun hx => hne (List.map_eq_nil_iff.mp hx)
  constructor
  · exact pySplitlines_two _ _ hkeys_nl hvals_nl
  · rw [splitTab_pyJoin _ hmne hkeys_tab, splitTab_pyJoin _ hmne2 hvals_tab]
    exact zip_map_fst_snd_eq d

theorem claim_C7_witness :
    (([("HMMDirectory", "."), ("HMMfile", "x.hmm"), ("SOURCE", "unknown")] : Record) ≠ [] ∧
     ∀ p ∈ ([("HMMDirectory", "."), ("HMMfile", "x.hmm"), ("SOURCE", "unknown")] : Record),
       ('\t' ∉ p.1.data ∧ '\n' ∉ p.1.data) ∧ ('\t' ∉ p.2.data ∧ '\n' ∉ p.2.data)) ∧
    (pySplitlines (write_table_content
        [("HMMDirectory", "."), ("HMMfile", "x.hmm"), ("SOURCE", "unknown")]) =
      [pyJoin "\t" (([("HMMDirectory", "."), ("HMMfile", "x.hmm"),
          ("SOURCE", "unknown")] : Record).map Prod.fst),
       pyJoin "\t" (([("HMMDirectory", "."), ("HMMfile", "x.hmm"),
          ("SOURCE", "unknown")] : Record).map Prod.snd)] ∧
     (splitTab (pyJoin "\t" (([("HMMDirectory", "."), ("HMMfile", "x.hmm"),
          ("SOURCE", "unknown")] : Record).map Prod.fst))).zip
        (splitTab (pyJoin "\t" (([("HMMDirectory", "."), ("HMMfile", "x.hmm"),
          ("SOURCE", "unknown")] : Record).map Prod.snd))) =
      [("HMMDirectory", "."), ("HMMfile", "x.hmm"), ("SOURCE", "unknown")]) :=
  ⟨⟨by decide, by decide⟩,
   claim_C7_roundtrip_amended
     [("HMMDirectory", "."), ("HMMfile", "x.hmm"), ("SOURCE", "unknown")]
     (by decide) (by decide)⟩

/-! Directory traversal, claim C9. -/

/-- Model of `os.path.join(root, f)` for the relative names `os.walk` produces. -/
def pyJoinPath (root f : String) : String :=
  if root = "" then f
  else if pyEndsWith root "/" then root ++ f
  else root ++ "/" ++ f

/-- Model of `fnmatch.fnmatch(path, "*.hmm")` on POSIX: `*` matches any run of
characters, so the pattern is a suffix test. -/
def fnmatchHmm (path : String) : Bool :=
  pyEndsWith path ".hmm"

mutual
/-- A directory: its name, its plain files, its subdirectories. -/
inductive FSTree : Type where
  | dir : String → List String → FSForest → FSTree
/-- A directory listing. -/
inductive FSForest : Type where
  | nil : FSForest
  | cons : FSTree → FSForest → FSForest
end

def FSTree.name : FSTree → String
  | .dir n _ _ => n

mutual
/-- The `(root, filename)` pairs the `__main__` `os.walk` loop processes,
in order: the current directory's `*.hmm` files first (pre-order,
matching `fnmatch(join(root, filename), "*.hmm")`), then the
subdirectories — after `dirs.remove("data")` dropped the first
subdirectory named `data`. -/
def walkFiles (path : String) : FSTree → List (String × String)
  | .dir _ files subs =>
    (files.filter (fun f => fnmatchHmm (pyJoinPath path f))).map (fun f => (path, f)) ++
      walkSubs path true subs
/-- Walk a listing; `canSkip` records whether the single `remove("data")`
of this level is still pending. -/
def walkSubs (path : String) : Bool → FSForest → List (String × String)
  | _, .nil => []
  | canSkip, .cons t ts =>
    if canSkip ∧ t.name = "data" then walkSubs path false ts
    else walkFiles (pyJoinPath path t.name) t ++ walkSubs path canSkip ts
end

mutual
/-- Remove every subdirectory named `data`, everywhere in the tree. -/
def pruneData : FSTree → FSTree
  | .dir n files subs => .dir n files (pruneForest subs)
def pruneForest : FSForest → FSForest
  | .nil => .nil
  | .cons t ts =>
    if t.name = "data" then pruneForest ts else .cons (pruneData t) (pruneForest ts)
end

/-- Number of entries named `data` in a listing. -/
def countData : FSForest → Nat
  | .nil => 0
  | .cons t ts => (if t.name = "data" then 1 else 0) + countData ts

mutual
/-- A real file system: every directory listing holds at most one entry
named `data` (names in one directory are unique). -/
def okTree : FSTree → Bool
  | .dir _ _ subs => decide (countData subs ≤ 1) && okForest subs
def okForest : FSForest → Bool
  | .nil => true
  | .cons t ts => okTree t && okForest ts
end

theorem countData_pruneForest (ts : FSForest) : countData (pruneForest ts) = 0 := by
  cases ts with
  | nil => rfl
  | cons t ts =>
    rw [pruneForest]
    by_cases h : t.name = "data"
    · rw [if_pos h]; exact countData_pruneForest ts
    · rw [if_neg h, countData, show (pruneData t).name = t.name by cases t; rfl,
          if_neg h, countData_pruneForest ts]

theorem walkSubs_of_no_data (path : String) (b b' : Bool) (ts : FSForest)
    (h : countData ts = 0) : walkSubs path b ts = walkSubs path b' ts := by
  cases ts with
  | nil => rfl
  | cons t ts =>
    rw [countData] at h
    have hname : ¬t.name = "data" := by
      intro hx
      rw [if_pos hx] at h
      omega
    have hts : countData ts = 0 := by
      rw [if_neg hname] at h
      omega
    rw [walkSubs, walkSubs,
        if_neg (fun hx => hname hx.2), if_neg (fun hx => hname hx.2),
        walkSubs_of_no_data path b b' ts hts]

mutual
theorem walkFiles_pruneData (path : String) (t : FSTree) (h : okTree t = true) :
    walkFiles path t = walkFiles path (pruneData t) := by
  cases t with
  | dir n files subs =>
    rw [okTree, Bool.and_eq_true, decide_eq_true_iff] at h
    rw [pruneData, walkFiles, walkFiles]
    congr 1
    exact walkSubs_pruneForest path subs h.1 h.2
theorem walkSubs_pruneForest (path : String) (ts : FSForest)
    (hcount : countData ts ≤ 1) (hok : okForest ts = true) :
    walkSubs path true ts = walkSubs path true (pruneForest ts) := by
  cases ts with
  | nil => rfl
  | cons t ts =>
    rw [okForest, Bool.and_eq_true] at hok
    by_cases hname : t.name = "data"
    · rw [walkSubs, if_pos ⟨rfl, hname⟩, pruneForest, if_pos hname]
      rw [countData, if_pos hname] at hcount
      have hts0 : countData ts = 0 := by omega
      rw [walkSubs_of_no_data path false true ts hts0]
      rw [walkSubs_pruneForest2 path ts hts0 hok.2]
    · rw [walkSubs, if_neg (fun hx => hname hx.2), pruneForest, if_neg hname,
          walkSubs, if_neg (fun hx =>
            hname (by rw [show (pruneData t).name = t.name by cases t; rfl] at hx; exact hx.2))]
      rw [countData, if_neg hname] at hcount
      have hcount2 : countData ts ≤ 1 := by omega
      rw [show (pruneData t).name = t.name by cases t; rfl]
      rw [walkFiles_pruneData (pyJoinPath path t.name) t hok.1]
      congr 1
      exact walkSubs_pruneForest path ts hcount2 hok.2
theorem walkSubs_pruneForest2 (path : String) (ts : FSForest)
    (hcount : countData ts = 0) (hok : okForest ts = true) :
    walkSubs path true ts = walkSubs path true (pruneForest ts) := by
  cases ts with
  | nil => rfl
  | cons t ts =>
    rw [okForest, Bool.and_eq_true] at hok
    rw [countData] at hcount
    have hname : ¬t.name = "data" := by
      intro hx
      rw [if_pos hx] at hcount
      omega
    have hts0 : countData ts = 0 := by
      rw [if_neg hname] at hcount
      omega
    rw [walkSubs, if_neg (fun hx => hname hx.2), pruneForest, if_neg hname,
        walkSubs, if_neg (fun hx =>
          hname (by rw [show (pruneData t).name = t.name by cases t; rfl] at hx; exact hx.2))]
    rw [show (pruneData t).name = t.name by cases t; rfl]
    rw [walkFiles_pruneData (pyJoinPath path t.name) t hok.1]
    congr 1
    exact walkSubs_pruneForest2 path ts hts0 hok.2
end

/-- C9: on a real file system (unique names per directory), the traversal
processes exactly the files of the tree with every `data` subtree removed:
subdirectories named `data`, and everything beneath them, contribute zero
processed files regardless of their content. -/
theorem claim_C9_data_excluded (path : String) (t : FSTree) (h : okTree t = true) :
    walkFiles path t = walkFiles path (pruneData t) :=
  walkFiles_pruneData path t h

theorem claim_C9_witness :
    okTree (.dir "." ["a.hmm", "readme.txt"]
      (.cons (.dir "data" ["z.hmm"] (.cons (.dir "deep" ["w.hmm"] .nil) .nil))
        (.cons (.dir "models" ["b.hmm"] .nil) .nil))) = true ∧
    walkFiles "." (.dir "." ["a.hmm", "readme.txt"]
      (.cons (.dir "data" ["z.hmm"] (.cons (.dir "deep" ["w.hmm"] .nil) .nil))
        (.cons (.dir "models" ["b.hmm"] .nil) .nil))) =
    walkFiles "." (pruneData (.dir "." ["a.hmm", "readme.txt"]
      (.cons (.dir "data" ["z.hmm"] (.cons (.dir "deep" ["w.hmm"] .nil) .nil))
        (.cons (.dir "models" ["b.hmm"] .nil) .nil)))) :=
  ⟨rfl,
   claim_C9_data_excluded "." (.dir "." ["a.hmm", "readme.txt"]
     (.cons (.dir "data" ["z.hmm"] (.cons (.dir "deep" ["w.hmm"] .nil) .nil))
       (.cons (.dir "models" ["b.hmm"] .nil) .nil))) rfl⟩

end HMMMeta
